import Mathlib

/-!
Verification of the per-client Hack language session manager in
`src/pkg/nuclide/hack/lib/hack.js`.

The module keeps two process-wide maps keyed by client identifier: the
session registry `clientToHackLanguage` and the linter-diagnostics cache
`clientToHackLinterCache`.  Session creation
(`createHackLanguageIfNotExisting`) probes backend availability via
`client.exec('which hh_client')` and
`client.findNearestFile('.hhconfig', dirname(filePath))`, run under
`Promise.all`, then installs a single `HackLanguage` wrapping either the
real client or a `NullHackClient`.

The embedding below models the session operations' external results
(backend responses, probe outcomes) as explicit inputs, and models the
cooperative async interleaving of concurrent creation calls as a small-step
machine (`stepCall` / `run`).
-/

namespace Hack

/-- JS error values are opaque to this module; modelled as strings. -/
abbrev JsError := String

/-- Result object of `client.exec`; only `stdout` is consumed by this module. -/
structure ExecResult where
  stdout : String
deriving DecidableEq, Repr

/-- JS truthiness of a `path | none` value as tested by `if` in the source:
`null`/`undefined` and the empty string are falsy, any other string truthy. -/
def jsTruthyStr : Option String → Bool
  | none => false
  | some s => !s.isEmpty

/-- JS `String.prototype.trim`, modelled over the character list: strip
leading and trailing whitespace. -/
def jsTrim (s : String) : String :=
  ⟨List.reverse (List.dropWhile Char.isWhitespace
      (List.reverse (List.dropWhile Char.isWhitespace s.data)))⟩

/-- JS `String.prototype.toLowerCase`, modelled as per-character
lower-casing over the character list. -/
def jsToLowerCase (s : String) : String :=
  ⟨s.data.map Char.toLower⟩

/-- The client handle wrapped by a session: either the real NuclideClient
(identified by its id) or a `NullHackClient` (hack.js lines 178-180). -/
inductive HackClientKind where
  | realClient (clientId : String)
  | nullHackClient
deriving DecidableEq, Repr

/-- A `HackLanguage` instance.  `instanceId` models JS object identity: each
`new HackLanguage(...)` allocation gets a fresh id. -/
structure HackLanguage where
  instanceId : Nat
  hackClient : HackClientKind
deriving DecidableEq, Repr

/-- The capability decision of hack.js line 177:
`if (stdout.trim() && nearestPath)`. -/
def isHackAvailable (execResult : ExecResult) (nearestPath : Option String) : Bool :=
  !(jsTrim execResult.stdout).isEmpty && jsTruthyStr nearestPath

/-- The allocation of hack.js lines 177-182: a fresh `HackLanguage` wrapping
the real client when the capability probe succeeded, else a `NullHackClient`. -/
def newHackLanguage (clientId : String) (execResult : ExecResult)
    (nearestPath : Option String) (nextId : Nat) : HackLanguage :=
  { instanceId := nextId,
    hackClient :=
      if isHackAvailable execResult nearestPath then
        HackClientKind.realClient clientId
      else
        HackClientKind.nullHackClient }

/-! ### Sequential model of createHackLanguageIfNotExisting

The probe outcomes are the environment's responses to the two sub-probes,
carried on the client handle.  The outcome records the returned value (or the
propagated rejection), the updated module state, and which external probe
effects were performed. -/

/-- A client handle together with the environment's responses to the two
capability sub-probes issued for it. -/
structure NuclideClient where
  id : String
  execWhichHhClient : Except JsError ExecResult
  findNearestHhconfig : Except JsError (Option String)

/-- Module state: the process-wide session registry `clientToHackLanguage`
(an association list keyed by client id) plus the allocation counter for
`HackLanguage` instance identities. -/
structure HackState where
  clientToHackLanguage : List (String × HackLanguage)
  nextInstanceId : Nat
deriving Repr

/-- The observable external effects of session creation. -/
inductive ProbeEffect where
  | execWhichHhClient
  | findNearestHhconfig
deriving DecidableEq, Repr

/-- `Promise.all` over two settled promises: rejects when either input
rejects, otherwise resolves to the pair. -/
def promiseAll2 {α β : Type} (a : Except JsError α) (b : Except JsError β) :
    Except JsError (α × β) :=
  match a, b with
  | Except.error e, _ => Except.error e
  | Except.ok _, Except.error e => Except.error e
  | Except.ok x, Except.ok y => Except.ok (x, y)

/-- Outcome of one `createHackLanguageIfNotExisting` call. -/
structure CreateOutcome where
  result : Except JsError HackLanguage
  state : HackState
  effects : List ProbeEffect
deriving Repr

/-- Sequential model of hack.js lines 163-184: fast path on an existing
registry entry; otherwise both sub-probes run under `Promise.all`, the
registry is re-checked, and a fresh session is installed. -/
def createHackLanguageIfNotExisting (client : NuclideClient) (st : HackState) :
    CreateOutcome :=
  let clientId := client.id
  match st.clientToHackLanguage.lookup clientId with
  | some lang => { result := Except.ok lang, state := st, effects := [] }
  | none =>
    let effects := [ProbeEffect.execWhichHhClient, ProbeEffect.findNearestHhconfig]
    match promiseAll2 client.execWhichHhClient client.findNearestHhconfig with
    | Except.error e => { result := Except.error e, state := st, effects := effects }
    | Except.ok (execResult, nearestPath) =>
      match st.clientToHackLanguage.lookup clientId with
      | some lang => { result := Except.ok lang, state := st, effects := effects }
      | none =>
        let lang := newHackLanguage clientId execResult nearestPath st.nextInstanceId
        { result := Except.ok lang,
          state :=
            { clientToHackLanguage := (clientId, lang) :: st.clientToHackLanguage,
              nextInstanceId := st.nextInstanceId + 1 },
          effects := effects }

/-! ### Concurrent model of createHackLanguageIfNotExisting

Each concurrent call is a small state machine with one suspension point, the
`await Promise.all` of hack.js line 169.  A schedule picks which call runs
its next synchronous segment; segments are atomic, matching the
single-threaded cooperative execution model of the source. -/

/-- One concurrent call: the client id it resolves and the environment's
(settled) outcome of its `Promise.all` over the two sub-probes. -/
structure CallSpec where
  clientId : String
  probe : Except JsError (ExecResult × Option String)

/-- Progress of one call: not yet started, suspended at the `await` of line
169, returned a session, or rejected with the probe's error. -/
inductive CallPhase where
  | notStarted
  | suspended
  | done (lang : HackLanguage)
  | failed (e : JsError)
deriving DecidableEq, Repr

/-- Whether a call has returned a session. -/
def CallPhase.isDone : CallPhase → Bool
  | CallPhase.done _ => true
  | _ => false

/-- Shared state of the concurrent model: the registry, the allocation
counter, and every call's phase. -/
structure ConcState where
  reg : List (String × HackLanguage)
  nextId : Nat
  phases : List CallPhase
deriving Repr

/-- One synchronous segment of one call.  From `notStarted`: the initial
registry check (lines 164-167), returning the entry or suspending at the
probe.  From `suspended`: the probe outcome arrives; a rejection propagates
(lines 169-172); otherwise the registry is re-checked (lines 174-176) and,
only when still absent, a fresh session is installed (lines 177-183). -/
def stepCall (c : CallSpec) (ph : CallPhase)
    (reg : List (String × HackLanguage)) (nextId : Nat) :
    CallPhase × List (String × HackLanguage) × Nat :=
  match ph with
  | CallPhase.notStarted =>
    match reg.lookup c.clientId with
    | some lang => (CallPhase.done lang, reg, nextId)
    | none => (CallPhase.suspended, reg, nextId)
  | CallPhase.suspended =>
    match c.probe with
    | Except.error e => (CallPhase.failed e, reg, nextId)
    | Except.ok (execResult, nearestPath) =>
      match reg.lookup c.clientId with
      | some lang => (CallPhase.done lang, reg, nextId)
      | none =>
        let lang := newHackLanguage c.clientId execResult nearestPath nextId
        (CallPhase.done lang, (c.clientId, lang) :: reg, nextId + 1)
  | CallPhase.done lang => (CallPhase.done lang, reg, nextId)
  | CallPhase.failed e => (CallPhase.failed e, reg, nextId)

/-- Run one synchronous segment of call `i` (no-op on an out-of-range index). -/
def stepAt (calls : List CallSpec) (st : ConcState) (i : Nat) : ConcState :=
  match calls[i]?, st.phases[i]? with
  | some c, some ph =>
    let r := stepCall c ph st.reg st.nextId
    { reg := r.2.1, nextId := r.2.2, phases := st.phases.set i r.1 }
  | _, _ => st

/-- Run a whole schedule of synchronous segments. -/
def run (calls : List CallSpec) (st : ConcState) (sched : List Nat) : ConcState :=
  sched.foldl (stepAt calls) st

/-- Initial concurrent state: a given registry and counter, every call not
yet started. -/
def initState (calls : List CallSpec) (reg : List (String × HackLanguage))
    (nextId : Nat) : ConcState :=
  { reg := reg, nextId := nextId,
    phases := List.replicate calls.length CallPhase.notStarted }

/-! ### findDefinition (hack.js lines 97-114)

The session's `getDefinition` is an external collaborator; it is modelled as
a function of the line and column actually passed to it (path, contents and
line text are fixed for one call and elided).  The outcome records the
arguments the session operation was invoked with, so that the boundary
translation is itself observable. -/

/-- A location as returned by the backend, 1-based. -/
structure DefLocation where
  path : String
  line : Int
  column : Int
deriving DecidableEq, Repr

/-- The location object surfaced to the caller of `findDefinition`. -/
structure FileLocation where
  file : String
  line : Int
  column : Int
deriving DecidableEq, Repr

/-- hack.js lines 143-148: prepend `protocol + '//' + host` when both are
truthy, else return the bare path. -/
def getFilePath (filePath : String) (protocol host : Option String) : String :=
  if jsTruthyStr protocol && jsTruthyStr host then
    match protocol, host with
    | some p, some h => p ++ "//" ++ h ++ filePath
    | _, _ => filePath
  else
    filePath

/-- Outcome of one `findDefinition` call: the line and column passed to the
session's `getDefinition`, and the value returned to the caller. -/
structure FindDefOutcome where
  argLine : Int
  argColumn : Int
  result : Option FileLocation
deriving DecidableEq, Repr

/-- hack.js lines 97-114: call `getDefinition(path, contents, line+1,
column+1, lineText)`; return null on an absent or empty result, else surface
the first location with both coordinates shifted down by one. -/
def findDefinition (getDefinition : Int → Int → Option (List DefLocation))
    (protocol host : Option String) (line column : Int) : FindDefOutcome :=
  let result := getDefinition (line + 1) (column + 1)
  { argLine := line + 1,
    argColumn := column + 1,
    result :=
      match result with
      | none => none
      | some [] => none
      | some (pos :: _) =>
        some { file := getFilePath pos.path protocol host,
               line := pos.line - 1,
               column := pos.column - 1 } }

/-! ### findDiagnostics (hack.js lines 36-48)

Request-scoped diagnostics come from the session's `getDiagnostics`; the
linter cache `clientToHackLinterCache` is the second process-wide map.
Diagnostic payloads are opaque (`Array<mixed>`), so the model is polymorphic
in the payload type. -/

/-- hack.js lines 41-47: concatenate the cached server-wide diagnostics for
this client after the request-scoped ones; with no cache entry, return the
request-scoped diagnostics alone. -/
def findDiagnostics {α : Type} (errors : List α) (clientId : String)
    (clientToHackLinterCache : List (String × List α)) : List α :=
  match clientToHackLinterCache.lookup clientId with
  | some cached => errors ++ cached
  | none => errors

/-! ### fetchCompletionsForEditor (hack.js lines 50-61) -/

/-- A completion object returned by the session's `getCompletions`;
`matchText` is the only field this module inspects, `payload` stands for the
rest of the opaque object. -/
structure Completion where
  matchText : String
  payload : String
deriving DecidableEq, Repr

/-- Whether `t` occurs contiguously in `s`, starting at the head of `s`. -/
def charsStartsWith : List Char → List Char → Bool
  | _, [] => true
  | [], _ :: _ => false
  | c :: cs, d :: ds => c == d && charsStartsWith cs ds

/-- JS `s.indexOf(t) >= 0`: whether `t` occurs contiguously anywhere in `s`
(true for an empty `t`). -/
def charsContains : List Char → List Char → Bool
  | [], t => t.isEmpty
  | c :: cs, t => charsStartsWith (c :: cs) t || charsContains cs t

/-- hack.js lines 57-60: keep the completions whose `matchText` contains the
lower-cased token, comparing case-insensitively via lower-casing both sides. -/
def fetchCompletionsForEditor (completions : List Completion) (pfx : String) :
    List Completion :=
  let tokenLowerCase := jsToLowerCase pfx
  completions.filter
    (fun completion =>
      charsContains (jsToLowerCase completion.matchText).data tokenLowerCase.data)

/-! ### onDidSave (hack.js lines 116-140)

`updateFile` is awaited first; the server-diagnostics fetch is wrapped in
try/catch, and only a successful (hence defined) result updates the linter
cache and dispatches the linter trigger.  The environment's settled outcome
of `getServerDiagnostics` is an explicit input; the returned effect list
records the order of the observable steps. -/

/-- Observable steps of the save handler, in execution order. -/
inductive SaveEffect where
  | updateFileStep
  | fetchServerDiagnostics
  | logErrorStep
  | linterDispatch
  | updateDependenciesStep
deriving DecidableEq, Repr

/-- hack.js lines 116-140: await `updateFile`, then try the server
diagnostics fetch; on a rejection, log and leave the cache alone (no linter
dispatch); on success, store the diagnostics under the client id and
dispatch the linter; finally fire `updateDependencies`. -/
def onDidSave {α : Type} (serverDiagnostics : Except JsError (List α))
    (clientId : String) (clientToHackLinterCache : List (String × List α)) :
    List (String × List α) × List SaveEffect :=
  let effs := [SaveEffect.updateFileStep, SaveEffect.fetchServerDiagnostics]
  match serverDiagnostics with
  | Except.error _ =>
    (clientToHackLinterCache,
     effs ++ [SaveEffect.logErrorStep] ++ [SaveEffect.updateDependenciesStep])
  | Except.ok diagnostics =>
    ((clientId, diagnostics) :: clientToHackLinterCache,
     effs ++ [SaveEffect.linterDispatch] ++ [SaveEffect.updateDependenciesStep])

/-! ### Helper lemmas -/

/-- The capability test succeeds exactly when the trimmed stdout is non-empty
and the search found a path, provided found paths are non-empty strings (as
the `path | none` contract of `findNearestFile` guarantees). -/
theorem isHackAvailable_iff (stdout : String) (nearestPath : Option String)
    (hpath : nearestPath ≠ some "") :
    isHackAvailable ⟨stdout⟩ nearestPath = true ↔
      (jsTrim stdout ≠ "" ∧ nearestPath.isSome) := by
  have hne : ∀ s : String, (s.isEmpty = false) ↔ s ≠ "" := by
    intro s
    constructor
    · intro hf he
      rw [he] at hf
      exact absurd hf (by decide)
    · intro h
      cases he : s.isEmpty
      · rfl
      · exact absurd ((String.isEmpty_iff s).mp he) h
  cases nearestPath with
  | none => simp [isHackAvailable, jsTruthyStr]
  | some p =>
    have hps : p ≠ "" := by
      intro hp0
      exact hpath (by rw [hp0])
    simp [isHackAvailable, jsTruthyStr, hne, hps]

/-! ### Claim theorems -/

/-- C8: if an entry for the client identifier already exists in the registry,
createHackLanguageIfNotExisting returns that entry immediately, with no shell
exec, no file search and no suspension (empty effect list, state unchanged). -/
theorem createHackLanguage_fast_path (client : NuclideClient) (st : HackState)
    (lang : HackLanguage)
    (h : st.clientToHackLanguage.lookup client.id = some lang) :
    createHackLanguageIfNotExisting client st =
      { result := Except.ok lang, state := st, effects := [] } := by
  simp [createHackLanguageIfNotExisting, h]

theorem createHackLanguage_fast_path_witness :
    createHackLanguageIfNotExisting
      ⟨"c", Except.error "boom", Except.error "boom"⟩
      ⟨[("c", ⟨0, HackClientKind.nullHackClient⟩)], 1⟩ =
      { result := Except.ok ⟨0, HackClientKind.nullHackClient⟩,
        state := ⟨[("c", ⟨0, HackClientKind.nullHackClient⟩)], 1⟩,
        effects := [] } :=
  createHackLanguage_fast_path _ _ _ rfl

/-- C6: if either capability sub-probe rejects on first access, the error
propagates out of createHackLanguageIfNotExisting, the registry is left
unchanged, and both sub-probes were nevertheless issued. -/
theorem createHackLanguage_probe_failure (client : NuclideClient)
    (st : HackState) (e : JsError)
    (hnew : st.clientToHackLanguage.lookup client.id = none)
    (herr : client.execWhichHhClient = Except.error e ∨
            client.findNearestHhconfig = Except.error e) :
    (∃ e2, (createHackLanguageIfNotExisting client st).result = Except.error e2) ∧
    (createHackLanguageIfNotExisting client st).state = st ∧
    (createHackLanguageIfNotExisting client st).effects =
      [ProbeEffect.execWhichHhClient, ProbeEffect.findNearestHhconfig] := by
  have hp : ∃ e2, promiseAll2 client.execWhichHhClient client.findNearestHhconfig =
      Except.error e2 := by
    rcases herr with h | h
    · exact ⟨e, by simp [promiseAll2, h]⟩
    · cases ha : client.execWhichHhClient with
      | error e1 => exact ⟨e1, by simp [promiseAll2, ha]⟩
      | ok x => exact ⟨e, by simp [promiseAll2, ha, h]⟩
  obtain ⟨e2, hp⟩ := hp
  refine ⟨⟨e2, ?_⟩, ?_, ?_⟩ <;>
    simp [createHackLanguageIfNotExisting, hnew, hp]

theorem createHackLanguage_probe_failure_witness :
    (∃ e2, (createHackLanguageIfNotExisting
        ⟨"c", Except.error "exec failed", Except.ok (some "/r/.hhconfig")⟩
        ⟨[], 0⟩).result = Except.error e2) ∧
    (createHackLanguageIfNotExisting
        ⟨"c", Except.error "exec failed", Except.ok (some "/r/.hhconfig")⟩
        ⟨[], 0⟩).state = ⟨[], 0⟩ ∧
    (createHackLanguageIfNotExisting
        ⟨"c", Except.error "exec failed", Except.ok (some "/r/.hhconfig")⟩
        ⟨[], 0⟩).effects =
      [ProbeEffect.execWhichHhClient, ProbeEffect.findNearestHhconfig] :=
  createHackLanguage_probe_failure _ _ "exec failed" rfl (Or.inl rfl)

/-- C2: on first access, the created session wraps the real client exactly
when the trimmed stdout of the backend-discoverability command is non-empty
and the upward marker search found a path; every other combination wraps the
NullHackClient.  Found paths are assumed non-empty strings, per the
`path | none` contract of `findNearestFile`. -/
theorem createHackLanguage_capability (client : NuclideClient) (st : HackState)
    (stdout : String) (nearestPath : Option String)
    (hnew : st.clientToHackLanguage.lookup client.id = none)
    (hexec : client.execWhichHhClient = Except.ok ⟨stdout⟩)
    (hfind : client.findNearestHhconfig = Except.ok nearestPath)
    (hpath : nearestPath ≠ some "") :
    ∃ lang, (createHackLanguageIfNotExisting client st).result = Except.ok lang ∧
      (lang.hackClient = HackClientKind.realClient client.id ↔
        (jsTrim stdout ≠ "" ∧ nearestPath.isSome)) ∧
      (¬(jsTrim stdout ≠ "" ∧ nearestPath.isSome) →
        lang.hackClient = HackClientKind.nullHackClient) := by
  have hiff := isHackAvailable_iff stdout nearestPath hpath
  refine ⟨newHackLanguage client.id ⟨stdout⟩ nearestPath st.nextInstanceId, ?_, ?_, ?_⟩
  · simp [createHackLanguageIfNotExisting, hnew, hexec, hfind, promiseAll2]
  · by_cases hav : isHackAvailable ⟨stdout⟩ nearestPath = true
    · simp [newHackLanguage, hav, hiff.mp hav]
    · have hnp : ¬(jsTrim stdout ≠ "" ∧ nearestPath.isSome) := fun hc => hav (hiff.mpr hc)
      simp [newHackLanguage, hav, hnp]
  · intro hc
    have hav : ¬ isHackAvailable ⟨stdout⟩ nearestPath = true := fun h2 => hc (hiff.mp h2)
    simp [newHackLanguage, hav]

theorem createHackLanguage_capability_witness :
    ∃ lang, (createHackLanguageIfNotExisting
        ⟨"c", Except.ok ⟨" hh_client "⟩, Except.ok (some "/r/.hhconfig")⟩
        ⟨[], 0⟩).result = Except.ok lang ∧
      (lang.hackClient = HackClientKind.realClient "c" ↔
        (jsTrim " hh_client " ≠ "" ∧ (some "/r/.hhconfig").isSome)) ∧
      (¬(jsTrim " hh_client " ≠ "" ∧ (some "/r/.hhconfig").isSome) →
        lang.hackClient = HackClientKind.nullHackClient) :=
  createHackLanguage_capability _ _ " hh_client " (some "/r/.hhconfig")
    rfl rfl rfl (by decide)

/-- C4: findDiagnostics returns the request-scoped diagnostics followed by
the cached server-wide diagnostics for the client identifier, order
preserved; with no cache entry it returns exactly the request-scoped ones. -/
theorem findDiagnostics_merge {α : Type} (errors : List α) (clientId : String)
    (cache : List (String × List α)) :
    (∀ cached, cache.lookup clientId = some cached →
       findDiagnostics errors clientId cache = errors ++ cached) ∧
    (cache.lookup clientId = none →
       findDiagnostics errors clientId cache = errors) := by
  constructor
  · intro cached h
    simp [findDiagnostics, h]
  · intro h
    simp [findDiagnostics, h]

theorem findDiagnostics_merge_witness :
    findDiagnostics ["a", "b"] "p" [("p", ["c"])] = ["a", "b", "c"] :=
  (findDiagnostics_merge ["a", "b"] "p" [("p", ["c"])]).1 ["c"] rfl

/-- C5: when the server-diagnostics fetch rejects, onDidSave still returns
normally (error caught and logged), updateFile completed before the fetch
was attempted, the linter cache is left unchanged, and no linter trigger is
dispatched. -/
theorem onDidSave_server_diagnostics_failure {α : Type} (e : JsError)
    (clientId : String) (cache : List (String × List α)) :
    (onDidSave (Except.error e) clientId cache).1 = cache ∧
    SaveEffect.linterDispatch ∉ (onDidSave (Except.error e) clientId cache).2 ∧
    (onDidSave (Except.error e) clientId cache).2 =
      [SaveEffect.updateFileStep, SaveEffect.fetchServerDiagnostics,
       SaveEffect.logErrorStep, SaveEffect.updateDependenciesStep] := by
  refine ⟨rfl, ?_, rfl⟩
  simp [onDidSave]

/-- C3: findDefinition passes line+1 and column+1 to the session's
getDefinition, and surfaces the backend's 1-based first location with both
coordinates shifted down by one. -/
theorem findDefinition_coordinate_translation
    (getDefinition : Int → Int → Option (List DefLocation))
    (protocol host : Option String) (line column : Int)
    (pos : DefLocation) (rest : List DefLocation)
    (h : getDefinition (line + 1) (column + 1) = some (pos :: rest)) :
    (findDefinition getDefinition protocol host line column).argLine = line + 1 ∧
    (findDefinition getDefinition protocol host line column).argColumn = column + 1 ∧
    (findDefinition getDefinition protocol host line column).result =
      some { file := getFilePath pos.path protocol host,
             line := pos.line - 1, column := pos.column - 1 } := by
  refine ⟨rfl, rfl, ?_⟩
  simp [findDefinition, h]

theorem findDefinition_coordinate_translation_witness :
    (findDefinition (fun _ _ => some [⟨"/f.php", 5, 7⟩]) none none 0 0).result =
      some { file := getFilePath "/f.php" none none, line := 5 - 1, column := 7 - 1 } :=
  (findDefinition_coordinate_translation (fun _ _ => some [⟨"/f.php", 5, 7⟩])
    none none 0 0 ⟨"/f.php", 5, 7⟩ [] rfl).2.2

/-- C7: findDefinition returns none exactly when the session's getDefinition
result is absent or empty; otherwise the surfaced location is derived from
the first element of the result list alone. -/
theorem findDefinition_none_iff
    (getDefinition : Int → Int → Option (List DefLocation))
    (protocol host : Option String) (line column : Int) :
    ((findDefinition getDefinition protocol host line column).result = none ↔
      (getDefinition (line + 1) (column + 1) = none ∨
       getDefinition (line + 1) (column + 1) = some [])) ∧
    (∀ pos rest, getDefinition (line + 1) (column + 1) = some (pos :: rest) →
      (findDefinition getDefinition protocol host line column).result =
        some { file := getFilePath pos.path protocol host,
               line := pos.line - 1, column := pos.column - 1 }) := by
  constructor
  · cases h : getDefinition (line + 1) (column + 1) with
    | none => simp [findDefinition, h]
    | some l =>
      cases l with
      | nil => simp [findDefinition, h]
      | cons pos rest => simp [findDefinition, h]
  · intro pos rest h
    simp [findDefinition, h]

theorem findDefinition_none_iff_witness :
    (findDefinition (fun _ _ => some []) none none 2 3).result = none :=
  (findDefinition_none_iff (fun _ _ => some []) none none 2 3).1.mpr (Or.inr rfl)

/-- charsStartsWith decides the list-prefix relation. -/
theorem charsStartsWith_iff (s t : List Char) :
    charsStartsWith s t = true ↔ t <+: s := by
  induction t generalizing s with
  | nil => simp [charsStartsWith]
  | cons d ds ih =>
    cases s with
    | nil => simp [charsStartsWith]
    | cons c cs =>
      rw [charsStartsWith, Bool.and_eq_true, beq_iff_eq, ih, List.cons_prefix_cons]
      exact and_congr ⟨Eq.symm, Eq.symm⟩ Iff.rfl

/-- charsContains decides the contiguous-occurrence (infix) relation. -/
theorem charsContains_iff (s t : List Char) :
    charsContains s t = true ↔ t <:+: s := by
  induction s with
  | nil =>
    show t.isEmpty = true ↔ t <:+: []
    rw [List.isEmpty_iff, List.infix_nil]
  | cons c cs ih =>
    rw [charsContains, Bool.or_eq_true, charsStartsWith_iff, ih,
      List.infix_cons_iff]

/-- C10: fetchCompletionsForEditor is exactly the backend's completion list
filtered to those whose matchText contains the prefix case-insensitively as
a contiguous substring, with the backend's order preserved. -/
theorem fetchCompletions_filter_spec (completions : List Completion) (pfx : String) :
    fetchCompletionsForEditor completions pfx =
      completions.filter
        (fun completion =>
          charsContains (jsToLowerCase completion.matchText).data
            (jsToLowerCase pfx).data) ∧
    (∀ completion ∈ fetchCompletionsForEditor completions pfx,
       (jsToLowerCase pfx).data <:+: (jsToLowerCase completion.matchText).data) ∧
    (fetchCompletionsForEditor completions pfx).Sublist completions := by
  refine ⟨rfl, ?_, ?_⟩
  · intro completion hm
    simp only [fetchCompletionsForEditor, List.mem_filter] at hm
    exact (charsContains_iff _ _).mp hm.2
  · simp only [fetchCompletionsForEditor]
    exact List.filter_sublist _

theorem fetchCompletions_filter_spec_witness :
    (jsToLowerCase "ab").data <:+: (jsToLowerCase "xAbc").data :=
  (fetchCompletions_filter_spec [⟨"xAbc", "p1"⟩, ⟨"zz", "p2"⟩] "ab").2.1
    ⟨"xAbc", "p1"⟩ (by decide)

/-- One concurrent segment never removes or overwrites an existing registry
entry: the only insertion (hack.js line 182) is guarded by the key being
absent, and entries are consed in front of a lookup that never reaches them
under the same key. -/
theorem lookup_stepAt_preserved (calls : List CallSpec) (st : ConcState)
    (i : Nat) (k : String) (lang : HackLanguage)
    (h : st.reg.lookup k = some lang) :
    (stepAt calls st i).reg.lookup k = some lang := by
  cases hc : calls[i]? with
  | none => simpa [stepAt, hc] using h
  | some c =>
    cases hp : st.phases[i]? with
    | none => simpa [stepAt, hc, hp] using h
    | some ph =>
      cases ph with
      | notStarted =>
        cases hl : st.reg.lookup c.clientId with
        | some l => simpa [stepAt, hc, hp, stepCall, hl] using h
        | none => simpa [stepAt, hc, hp, stepCall, hl] using h
      | suspended =>
        cases hpr : c.probe with
        | error e => simpa [stepAt, hc, hp, stepCall, hpr] using h
        | ok pr =>
          obtain ⟨execResult, nearestPath⟩ := pr
          cases hl : st.reg.lookup c.clientId with
          | some l => simpa [stepAt, hc, hp, stepCall, hpr, hl] using h
          | none =>
            have hk : k ≠ c.clientId := by
              intro he
              rw [he, hl] at h
              cases h
            have hbeq : (k == c.clientId) = false := beq_eq_false_iff_ne.mpr hk
            simp [stepAt, hc, hp, stepCall, hpr, hl, List.lookup_cons, hbeq, h]
      | done l => simpa [stepAt, hc, hp, stepCall] using h
      | failed e => simpa [stepAt, hc, hp, stepCall] using h

/-- C9: once a session is installed under a client identifier, every later
interleaving of module operations leaves that registry mapping, key and
identical session instance, intact. -/
theorem registry_entry_persistent (calls : List CallSpec) (sched : List Nat)
    (st : ConcState) (k : String) (lang : HackLanguage)
    (h : st.reg.lookup k = some lang) :
    (run calls st sched).reg.lookup k = some lang := by
  induction sched generalizing st with
  | nil => exact h
  | cons i rest ih => exact ih _ (lookup_stepAt_preserved calls st i k lang h)

theorem registry_entry_persistent_witness :
    (run [⟨"b", Except.ok (⟨"hh"⟩, some "/r/.hhconfig")⟩]
         ⟨[("a", ⟨0, HackClientKind.nullHackClient⟩)], 1, [CallPhase.notStarted]⟩
         [0, 0]).reg.lookup "a" = some ⟨0, HackClientKind.nullHackClient⟩ :=
  registry_entry_persistent _ _ _ _ _ rfl

/-- Invariant for concurrent creation calls that all resolve the same client
identifier: either no entry for that identifier exists yet, the allocation
counter is untouched and no call has returned, or exactly one session has
been installed, allocated at the original counter value, the counter moved
exactly once, and every call that returned got that session. -/
def SingleSessionInv (cid : String) (nid0 n : Nat) (st : ConcState) : Prop :=
  st.phases.length = n ∧
  ((st.reg.lookup cid = none ∧ st.nextId = nid0 ∧
      ∀ ph ∈ st.phases, ph.isDone = false) ∨
   (∃ lang, st.reg.lookup cid = some lang ∧ st.nextId = nid0 + 1 ∧
      lang.instanceId = nid0 ∧
      ∀ ph ∈ st.phases, ∀ l, ph = CallPhase.done l → l = lang))

/-- The single-session invariant is preserved by every synchronous segment. -/
theorem singleSessionInv_stepAt (cid : String) (nid0 n : Nat)
    (calls : List CallSpec) (st : ConcState) (i : Nat)
    (hcid : ∀ c ∈ calls, c.clientId = cid)
    (h : SingleSessionInv cid nid0 n st) :
    SingleSessionInv cid nid0 n (stepAt calls st i) := by
  obtain ⟨hlen, hdisj⟩ := h
  cases hc : calls[i]? with
  | none =>
    have hst : stepAt calls st i = st := by simp [stepAt, hc]
    rw [hst]
    exact ⟨hlen, hdisj⟩
  | some c =>
    cases hp : st.phases[i]? with
    | none =>
      have hst : stepAt calls st i = st := by simp [stepAt, hc, hp]
      rw [hst]
      exact ⟨hlen, hdisj⟩
    | some ph =>
      have hcc : c.clientId = cid := hcid c (List.getElem?_mem hc)
      have hstep : stepAt calls st i =
          { reg := (stepCall c ph st.reg st.nextId).2.1,
            nextId := (stepCall c ph st.reg st.nextId).2.2,
            phases := st.phases.set i (stepCall c ph st.reg st.nextId).1 } := by
        simp [stepAt, hc, hp]
      rw [hstep]
      rcases hdisj with ⟨hnone, hnid, hnd⟩ | ⟨lang, hsome, hnid, hid, hdone⟩
      · -- no session installed yet
        cases ph with
        | notStarted =>
          have hsc : stepCall c CallPhase.notStarted st.reg st.nextId =
              (CallPhase.suspended, st.reg, st.nextId) := by
            simp [stepCall, hcc, hnone]
          rw [hsc]
          refine ⟨by simp [hlen], Or.inl ⟨hnone, hnid, ?_⟩⟩
          intro ph2 hm
          rcases List.mem_or_eq_of_mem_set hm with hm2 | rfl
          · exact hnd _ hm2
          · rfl
        | suspended =>
          cases hpr : c.probe with
          | error e =>
            have hsc : stepCall c CallPhase.suspended st.reg st.nextId =
                (CallPhase.failed e, st.reg, st.nextId) := by
              simp [stepCall, hpr]
            rw [hsc]
            refine ⟨by simp [hlen], Or.inl ⟨hnone, hnid, ?_⟩⟩
            intro ph2 hm
            rcases List.mem_or_eq_of_mem_set hm with hm2 | rfl
            · exact hnd _ hm2
            · rfl
          | ok pr =>
            obtain ⟨execResult, nearestPath⟩ := pr
            have hsc : stepCall c CallPhase.suspended st.reg st.nextId =
                (CallPhase.done (newHackLanguage cid execResult nearestPath st.nextId),
                 (cid, newHackLanguage cid execResult nearestPath st.nextId) :: st.reg,
                 st.nextId + 1) := by
              simp [stepCall, hpr, hcc, hnone]
            rw [hsc]
            refine ⟨by simp [hlen],
              Or.inr ⟨newHackLanguage cid execResult nearestPath st.nextId,
                ?_, ?_, ?_, ?_⟩⟩
            · simp [List.lookup_cons]
            · rw [hnid]
            · simp [newHackLanguage, hnid]
            · intro ph2 hm l hl
              rcases List.mem_or_eq_of_mem_set hm with hm2 | rfl
              · have h3 := hnd _ hm2
                rw [hl] at h3
                simp [CallPhase.isDone] at h3
              · injection hl with h2
                exact h2.symm
        | done l =>
          have h3 := hnd _ (List.getElem?_mem hp)
          simp [CallPhase.isDone] at h3
        | failed e =>
          have hsc : stepCall c (CallPhase.failed e) st.reg st.nextId =
              (CallPhase.failed e, st.reg, st.nextId) := by
            simp [stepCall]
          rw [hsc]
          refine ⟨by simp [hlen], Or.inl ⟨hnone, hnid, ?_⟩⟩
          intro ph2 hm
          rcases List.mem_or_eq_of_mem_set hm with hm2 | rfl
          · exact hnd _ hm2
          · rfl
      · -- a session is already installed
        have hdone2 : ∀ ph2 ∈ st.phases.set i (CallPhase.done lang), ∀ l,
            ph2 = CallPhase.done l → l = lang := by
          intro ph2 hm l hl
          rcases List.mem_or_eq_of_mem_set hm with hm2 | rfl
          · exact hdone _ hm2 l hl
          · injection hl with h2
            exact h2.symm
        cases ph with
        | notStarted =>
          have hsc : stepCall c CallPhase.notStarted st.reg st.nextId =
              (CallPhase.done lang, st.reg, st.nextId) := by
            simp [stepCall, hcc, hsome]
          rw [hsc]
          exact ⟨by simp [hlen], Or.inr ⟨lang, hsome, hnid, hid, hdone2⟩⟩
        | suspended =>
          cases hpr : c.probe with
          | error e =>
            have hsc : stepCall c CallPhase.suspended st.reg st.nextId =
                (CallPhase.failed e, st.reg, st.nextId) := by
              simp [stepCall, hpr]
            rw [hsc]
            refine ⟨by simp [hlen], Or.inr ⟨lang, hsome, hnid, hid, ?_⟩⟩
            intro ph2 hm l hl
            rcases List.mem_or_eq_of_mem_set hm with hm2 | rfl
            · exact hdone _ hm2 l hl
            · exact CallPhase.noConfusion hl
          | ok pr =>
            obtain ⟨execResult, nearestPath⟩ := pr
            have hsc : stepCall c CallPhase.suspended st.reg st.nextId =
                (CallPhase.done lang, st.reg, st.nextId) := by
              simp [stepCall, hpr, hcc, hsome]
            rw [hsc]
            exact ⟨by simp [hlen], Or.inr ⟨lang, hsome, hnid, hid, hdone2⟩⟩
        | done l =>
          have hsc : stepCall c (CallPhase.done l) st.reg st.nextId =
              (CallPhase.done l, st.reg, st.nextId) := by
            simp [stepCall]
          rw [hsc]
          refine ⟨by simp [hlen], Or.inr ⟨lang, hsome, hnid, hid, ?_⟩⟩
          intro ph2 hm l2 hl2
          rcases List.mem_or_eq_of_mem_set hm with hm2 | rfl
          · exact hdone _ hm2 l2 hl2
          · injection hl2 with h2
            rw [← h2]
            exact hdone _ (List.getElem?_mem hp) l rfl
        | failed e =>
          have hsc : stepCall c (CallPhase.failed e) st.reg st.nextId =
              (CallPhase.failed e, st.reg, st.nextId) := by
            simp [stepCall]
          rw [hsc]
          refine ⟨by simp [hlen], Or.inr ⟨lang, hsome, hnid, hid, ?_⟩⟩
          intro ph2 hm l hl
          rcases List.mem_or_eq_of_mem_set hm with hm2 | rfl
          · exact hdone _ hm2 l hl
          · exact CallPhase.noConfusion hl

/-- The single-session invariant is preserved by every whole schedule. -/
theorem singleSessionInv_run (cid : String) (nid0 n : Nat)
    (calls : List CallSpec) (sched : List Nat) (st : ConcState)
    (hcid : ∀ c ∈ calls, c.clientId = cid)
    (h : SingleSessionInv cid nid0 n st) :
    SingleSessionInv cid nid0 n (run calls st sched) := by
  induction sched generalizing st with
  | nil => exact h
  | cons i rest ih =>
    exact ih _ (singleSessionInv_stepAt cid nid0 n calls st i hcid h)

/-- C1: for any schedule under which N concurrent creation calls for the
same client identifier all complete, exactly one HackLanguage instance is
ever installed (the allocation counter moves exactly once) and that single
instance is returned to all N callers; a resolution completing after another
caller already inserted the entry returns the existing entry. -/
theorem createHackLanguage_single_session (cid : String) (calls : List CallSpec)
    (reg0 : List (String × HackLanguage)) (nid0 : Nat) (sched : List Nat)
    (hne : calls ≠ [])
    (hcid : ∀ c ∈ calls, c.clientId = cid)
    (hreg : reg0.lookup cid = none)
    (hall : ∀ ph ∈ (run calls (initState calls reg0 nid0) sched).phases,
       ph.isDone = true) :
    ∃ lang,
      (run calls (initState calls reg0 nid0) sched).reg.lookup cid = some lang ∧
      (∀ ph ∈ (run calls (initState calls reg0 nid0) sched).phases,
         ph = CallPhase.done lang) ∧
      (run calls (initState calls reg0 nid0) sched).nextId = nid0 + 1 := by
  have hinit : SingleSessionInv cid nid0 calls.length (initState calls reg0 nid0) := by
    refine ⟨by simp [initState], Or.inl ⟨hreg, rfl, ?_⟩⟩
    intro ph hm
    rw [List.eq_of_mem_replicate hm]
    rfl
  have hfin := singleSessionInv_run cid nid0 calls.length calls sched
    (initState calls reg0 nid0) hcid hinit
  obtain ⟨hlen, hdisj⟩ := hfin
  rcases hdisj with ⟨-, -, hnd⟩ | ⟨lang, hsome, hnid, -, hdone⟩
  · have hlp : (run calls (initState calls reg0 nid0) sched).phases ≠ [] := by
      intro h0
      have hl0 : calls.length = 0 := by
        rw [← hlen, h0]
        rfl
      exact hne (List.length_eq_zero.mp hl0)
    obtain ⟨ph0, hm0⟩ := List.exists_mem_of_ne_nil _ hlp
    have h1 := hall ph0 hm0
    have h2 := hnd ph0 hm0
    rw [h1] at h2
    simp at h2
  · refine ⟨lang, hsome, ?_, hnid⟩
    intro ph hm
    have h1 := hall ph hm
    cases ph with
    | notStarted => simp [CallPhase.isDone] at h1
    | suspended => simp [CallPhase.isDone] at h1
    | failed e => simp [CallPhase.isDone] at h1
    | done l => rw [hdone _ hm l rfl]

theorem createHackLanguage_single_session_witness :
    ∃ lang,
      (run [⟨"c", Except.ok (⟨"hh"⟩, some "/r/.hhconfig")⟩,
            ⟨"c", Except.ok (⟨""⟩, none)⟩]
           (initState [⟨"c", Except.ok (⟨"hh"⟩, some "/r/.hhconfig")⟩,
                       ⟨"c", Except.ok (⟨""⟩, none)⟩] [] 0)
           [0, 1, 1, 0]).reg.lookup "c" = some lang ∧
      (∀ ph ∈ (run [⟨"c", Except.ok (⟨"hh"⟩, some "/r/.hhconfig")⟩,
                    ⟨"c", Except.ok (⟨""⟩, none)⟩]
                   (initState [⟨"c", Except.ok (⟨"hh"⟩, some "/r/.hhconfig")⟩,
                               ⟨"c", Except.ok (⟨""⟩, none)⟩] [] 0)
                   [0, 1, 1, 0]).phases,
         ph = CallPhase.done lang) ∧
      (run [⟨"c", Except.ok (⟨"hh"⟩, some "/r/.hhconfig")⟩,
            ⟨"c", Except.ok (⟨""⟩, none)⟩]
           (initState [⟨"c", Except.ok (⟨"hh"⟩, some "/r/.hhconfig")⟩,
                       ⟨"c", Except.ok (⟨""⟩, none)⟩] [] 0)
           [0, 1, 1, 0]).nextId = 0 + 1 :=
  createHackLanguage_single_session "c"
    [⟨"c", Except.ok (⟨"hh"⟩, some "/r/.hhconfig")⟩, ⟨"c", Except.ok (⟨""⟩, none)⟩]
    [] 0 [0, 1, 1, 0]
    (by simp) (by decide) rfl (by decide)

end Hack
